import Mathlib

/-!
Verification of the openclaw-cc-bridge core against its specification.

Each part of this file shallowly embeds one piece of the TypeScript source
(compose-result.ts, claude-bridge.ts, hook-inbox.ts, run-manager.ts,
event-store.ts) as executable Lean definitions, and proves or refutes the
frozen claims about the program.  Timestamps are modelled as explicit natural
number parameters; JavaScript numbers carrying money are modelled as rationals;
byte buffers are lists of naturals below 256.
-/

namespace CCBridge

/-! ## Markdown result composition (compose-result.ts) -/

/-- One hook-tracked tool activity entry (compose-result.ts, ToolActivity).
The timestamp field is irrelevant to composition and omitted. -/
structure ToolActivity where
  toolName : String
  summary : String
  failed : Bool
  deriving DecidableEq

/-- One hook-tracked subagent lifecycle entry (compose-result.ts,
SubagentActivity); isStart is true for the "start" event. -/
structure SubagentActivity where
  agentType : String
  isStart : Bool
  deriving DecidableEq

/-- One option of an AskUserQuestion question (claude-bridge.ts). -/
structure QOption where
  label : String
  description : String
  deriving DecidableEq

/-- One AskUserQuestion question (claude-bridge.ts, PendingQuestion). -/
structure Question where
  header : String
  question : String
  options : List QOption
  deriving DecidableEq

/-- A pending AskUserQuestion (claude-bridge.ts, PendingQuestion). -/
structure PendingQuestion where
  questions : List Question
  deriving DecidableEq

/-- Optional run metadata handed to composition (compose-result.ts,
ComposeResultInput.meta).  A missing JavaScript field is the none case. -/
structure ComposeMeta where
  numTurns : Option Nat
  durationMs : Option Nat
  costUsd : Option ℚ
  deriving DecidableEq

/-- Input of composeResultMarkdown (compose-result.ts, ComposeResultInput). -/
structure ComposeResultInput where
  thinkingText : String
  hookToolActivities : List ToolActivity
  subagentActivities : Option (List SubagentActivity)
  result : String
  planContent : Option String
  pendingQuestion : Option PendingQuestion
  meta : Option ComposeMeta
  deriving DecidableEq

/-- Left-pad a numeral string with zeros up to width d. -/
def padZeros (s : String) (d : Nat) : String :=
  String.mk (List.replicate (d - s.length) '0') ++ s

/-- Model of JavaScript Number.prototype.toFixed over exact rationals,
rounding half away from zero to d digits. -/
def fmtFixed (q : ℚ) (d : Nat) : String :=
  let sign := if q < 0 then "-" else ""
  let scaled : ℤ := ⌊|q| * (10 : ℚ) ^ d + 1 / 2⌋
  let n := scaled.toNat
  let base := 10 ^ d
  if d = 0 then sign ++ toString (n / base)
  else sign ++ toString (n / base) ++ "." ++ padZeros (toString (n % base)) d

/-- The metadata footer entries of composeResultMarkdown (compose-result.ts
lines 107-115): one entry per metadata value, each pushed only when the
value is present and nonzero (JavaScript truthiness of a number). -/
def metaEntries : Option ComposeMeta → List String
  | none => []
  | some m =>
    (match m.numTurns with
     | some n => if n ≠ 0 then [toString n ++ " turns"] else []
     | none => []) ++
    (match m.durationMs with
     | some ms => if ms ≠ 0 then [fmtFixed ((ms : ℚ) / 1000) 1 ++ "s"] else []
     | none => []) ++
    (match m.costUsd with
     | some c => if c ≠ 0 then ["$" ++ fmtFixed c 4] else []
     | none => [])

/-- Shallow embedding of composeResultMarkdown (compose-result.ts lines
47-118): builds the list of markdown sections in source order and joins
them with blank lines. -/
def composeResultMarkdown (input : ComposeResultInput) : String :=
  let thinking := input.thinkingText.trim
  let s1 : List String :=
    if thinking ≠ "" then
      ["<details>\n<summary>💭 Thinking Process</summary>\n\n" ++ thinking ++ "\n\n</details>"]
    else []
  let s2 :=
    if input.hookToolActivities.length > 0 then
      let items := String.intercalate "\n" (input.hookToolActivities.map fun t =>
        (if t.failed then "x" else "-") ++ " `" ++ t.toolName ++ "` " ++
          (if t.failed then "(failed) " else "") ++ t.summary)
      s1 ++ ["### Tool Activity\n\n" ++ items]
    else s1
  let s3 :=
    match input.subagentActivities with
    | some sa =>
      if sa.length > 0 then
        let items := String.intercalate "\n" (sa.map fun s =>
          "- " ++ (if s.isStart then "Started" else "Finished") ++ " `" ++ s.agentType ++ "` subagent")
        s2 ++ ["### Subagent Activity\n\n" ++ items]
      else s2
    | none => s2
  let planTrim := (input.planContent.getD "").trim
  let s4 :=
    if planTrim ≠ "" then s3 ++ ["### 📋 Plan\n\n" ++ planTrim] else s3
  let s5 :=
    if input.result.trim ≠ "" then
      if planTrim ≠ "" then
        s4 ++ ["<details>\n<summary>📝 Result Summary</summary>\n\n" ++ input.result.trim ++ "\n\n</details>"]
      else
        s4 ++ ["### Result\n\n" ++ input.result.trim]
    else s4
  let s6 :=
    match input.pendingQuestion with
    | some pq =>
      let blocks := pq.questions.map fun q =>
        let optionLines := q.options.enum.map fun oi =>
          toString (oi.1 + 1) ++ ". **" ++ oi.2.label ++ "** — " ++ oi.2.description
        "**" ++ q.header ++ ": " ++ q.question ++ "**\n" ++ String.intercalate "\n" optionLines
      s5 ++ ["### Claude is asking:\n\n" ++ String.intercalate "\n\n" blocks ++
        "\n\nReply with your choice to continue."]
    | none => s5
  let entries := metaEntries input.meta
  let s7 :=
    if entries.length > 0 then s6 ++ ["---\n*" ++ String.intercalate " | " entries ++ "*"] else s6
  String.intercalate "\n\n" s7

/-- Composition depends on the meta field only through its footer entries. -/
theorem composeResultMarkdown_congr_meta (input : ComposeResultInput)
    (m1 m2 : Option ComposeMeta) (h : metaEntries m1 = metaEntries m2) :
    composeResultMarkdown { input with meta := m1 } =
      composeResultMarkdown { input with meta := m2 } := by
  simp only [composeResultMarkdown, h]

/-- A turn count of zero contributes no footer entry. -/
theorem metaEntries_numTurns_zero (m : ComposeMeta) (h : m.numTurns = some 0) :
    metaEntries (some m) = metaEntries (some { m with numTurns := none }) := by
  cases m
  simp_all [metaEntries]

/-- A duration of zero contributes no footer entry. -/
theorem metaEntries_durationMs_zero (m : ComposeMeta) (h : m.durationMs = some 0) :
    metaEntries (some m) = metaEntries (some { m with durationMs := none }) := by
  cases m
  simp_all [metaEntries]

/-- A cost of zero contributes no footer entry. -/
theorem metaEntries_costUsd_zero (m : ComposeMeta) (h : m.costUsd = some 0) :
    metaEntries (some m) = metaEntries (some { m with costUsd := none }) := by
  cases m
  simp_all [metaEntries]

/-- C9: in the composed result, the metadata footer omits any entry whose
value is zero — a turn count of 0, a duration of 0 ms and a cost of 0 dollars
each compose exactly as the absent value does — and when all three metadata
values are zero or absent the composition equals the one with no metadata at
all, so the footer line is omitted entirely. -/
theorem compose_meta_zero_entries_omitted :
    (∀ (input : ComposeResultInput) (m : ComposeMeta), input.meta = some m →
      m.numTurns = some 0 →
      composeResultMarkdown input =
        composeResultMarkdown { input with meta := some { m with numTurns := none } }) ∧
    (∀ (input : ComposeResultInput) (m : ComposeMeta), input.meta = some m →
      m.durationMs = some 0 →
      composeResultMarkdown input =
        composeResultMarkdown { input with meta := some { m with durationMs := none } }) ∧
    (∀ (input : ComposeResultInput) (m : ComposeMeta), input.meta = some m →
      m.costUsd = some 0 →
      composeResultMarkdown input =
        composeResultMarkdown { input with meta := some { m with costUsd := none } }) ∧
    (∀ (input : ComposeResultInput) (m : ComposeMeta), input.meta = some m →
      (m.numTurns = some 0 ∨ m.numTurns = none) →
      (m.durationMs = some 0 ∨ m.durationMs = none) →
      (m.costUsd = some 0 ∨ m.costUsd = none) →
      composeResultMarkdown input = composeResultMarkdown { input with meta := none }) := by
  refine ⟨?_, ?_, ?_, ?_⟩
  · intro input m hm h0
    have : input = { input with meta := some m } := by cases input; simp_all
    rw [this]
    exact composeResultMarkdown_congr_meta _ _ _ (metaEntries_numTurns_zero m h0)
  · intro input m hm h0
    have : input = { input with meta := some m } := by cases input; simp_all
    rw [this]
    exact composeResultMarkdown_congr_meta _ _ _ (metaEntries_durationMs_zero m h0)
  · intro input m hm h0
    have : input = { input with meta := some m } := by cases input; simp_all
    rw [this]
    exact composeResultMarkdown_congr_meta _ _ _ (metaEntries_costUsd_zero m h0)
  · intro input m hm h1 h2 h3
    have hin : input = { input with meta := some m } := by cases input; simp_all
    rw [hin]
    refine composeResultMarkdown_congr_meta _ _ _ ?_
    clear hin hm
    obtain ⟨t, d, c⟩ := m
    rcases h1 with h1 | h1 <;> rcases h2 with h2 | h2 <;> rcases h3 with h3 | h3 <;>
      simp_all [metaEntries]

/-- Witness for C9: a concrete input whose metadata is all zero composes
identically to the same input with no metadata. -/
theorem compose_meta_zero_entries_omitted_witness :
    composeResultMarkdown
        ⟨"hello", [], none, "done", none, none, some ⟨some 0, some 0, some 0⟩⟩ =
      composeResultMarkdown ⟨"hello", [], none, "done", none, none, none⟩ :=
  compose_meta_zero_entries_omitted.2.2.2
    ⟨"hello", [], none, "done", none, none, some ⟨some 0, some 0, some 0⟩⟩
    ⟨some 0, some 0, some 0⟩ rfl (Or.inl rfl) (Or.inl rfl) (Or.inl rfl)

/-! ## Subprocess bridge timeout retry (claude-bridge.ts) -/

/-- Response of one successful subprocess attempt (claude-bridge.ts,
ClaudeResponse, before the retryCount field is added by send). -/
structure BridgeResponse where
  result : String
  sessionId : String
  deriving DecidableEq

/-- The data of a ClaudeTimeoutError relevant to retry: the last session id
observed during the timed-out attempt, none when no system event arrived
(claude-bridge.ts lines 296-305; the partial tool-use list does not affect
the retry decision). -/
structure TimeoutErr where
  sessionId : Option String
  deriving DecidableEq

/-- Outcome of one spawnAndParse invocation, as decided by the external
subprocess behavior. -/
inductive AttemptOutcome
  | ok (r : BridgeResponse)
  | timeout (e : TimeoutErr)
  | fatal (msg : String)
  deriving DecidableEq

/-- Errors surfaced by send. -/
inductive SendError
  | timeout (e : TimeoutErr)
  | fatal (msg : String)
  deriving DecidableEq

/-- The arguments of one subprocess invocation that the retry loop varies:
the prompt and the optional resume session id (claude-bridge.ts, buildArgs). -/
structure AttemptCall where
  prompt : String
  resume : Option String
  deriving DecidableEq

/-- Shallow embedding of the retry loop of ClaudeBridge.send (claude-bridge.ts
lines 338-376).  attempts gives the subprocess behavior at each attempt index;
rem is maxTimeoutRetries minus the current attempt index (the loop guard
attempt < maxTimeoutRetries is rem > 0).  Returns the list of invocations
made, and the outcome paired with the consumed retry count. -/
def sendGo (attempts : Nat → AttemptOutcome) (rp : String) (i rem : Nat)
    (prompt : String) (sid : Option String) (rc : Nat) :
    List AttemptCall × Except SendError (BridgeResponse × Nat) :=
  match attempts i with
  | .ok r => ([⟨prompt, sid⟩], .ok (r, rc))
  | .fatal m => ([⟨prompt, sid⟩], .error (.fatal m))
  | .timeout e =>
    match rem with
    | 0 => ([⟨prompt, sid⟩], .error (.timeout e))
    | rem + 1 =>
      match e.sessionId.orElse (fun _ => sid) with
      | none => ([⟨prompt, sid⟩], .error (.timeout e))
      | some rid =>
        let rest := sendGo attempts rp (i + 1) rem rp (some rid) (rc + 1)
        (⟨prompt, sid⟩ :: rest.1, rest.2)

/-- ClaudeBridge.send: run the retry loop from attempt 0 with retry budget
maxTimeoutRetries, fixed resume prompt rp, initial prompt and session id. -/
def send (attempts : Nat → AttemptOutcome) (maxTimeoutRetries : Nat)
    (rp prompt : String) (sid : Option String) :
    List AttemptCall × Except SendError (BridgeResponse × Nat) :=
  sendGo attempts rp 0 maxTimeoutRetries prompt sid 0

/-- When every timeout carries session id s, every call of a loop started on
session s uses the fixed resume prompt and resumes s. -/
theorem sendGo_calls_const (attempts : Nat → AttemptOutcome) (rp : String)
    (s : String) (h : ∀ i e, attempts i = .timeout e → e.sessionId = some s) :
    ∀ rem i rc, ∀ c ∈ (sendGo attempts rp i rem rp (some s) rc).1, c = (⟨rp, some s⟩ : AttemptCall) := by
  intro rem
  induction rem with
  | zero =>
    intro i rc c hc
    cases hA : attempts i <;> rw [sendGo.eq_def, hA] at hc <;> simpa using hc
  | succ rem ih =>
    intro i rc c hc
    cases hA : attempts i with
    | ok r => rw [sendGo.eq_def, hA] at hc; simpa using hc
    | fatal m => rw [sendGo.eq_def, hA] at hc; simpa using hc
    | timeout e =>
      have hs := h i e hA
      rw [sendGo.eq_def, hA] at hc
      simp [hs, Option.orElse] at hc
      rcases hc with hc | hc
      · simp [hc]
      · exact ih (i + 1) (rc + 1) c hc

/-- If k consecutive attempts starting at j time out with a known session id
and attempt j+k succeeds, the loop returns that response with retry count
rc+k, provided the remaining budget is at least k. -/
theorem sendGo_success_after (attempts : Nat → AttemptOutcome) (rp : String) :
    ∀ (k : Nat) (j rem : Nat) (prompt : String) (sid : Option String) (rc : Nat)
      (r : BridgeResponse),
      k ≤ rem →
      (∀ i, i < k → ∃ ssid, attempts (j + i) = .timeout ⟨some ssid⟩) →
      attempts (j + k) = .ok r →
      (sendGo attempts rp j rem prompt sid rc).2 = .ok (r, rc + k) := by
  intro k
  induction k with
  | zero =>
    intro j rem prompt sid rc r _ _ hok
    simp only [Nat.add_zero] at hok
    rw [sendGo.eq_def, hok]
    simp
  | succ k ih =>
    intro j rem prompt sid rc r hle htos hok
    obtain ⟨ssid, hA⟩ := htos 0 (Nat.succ_pos k)
    simp only [Nat.add_zero] at hA
    obtain ⟨rem, rfl⟩ : ∃ m, rem = m + 1 := by
      cases rem with
      | zero => omega
      | succ m => exact ⟨m, rfl⟩
    have htail : ∀ i, i < k → ∃ ssid, attempts (j + 1 + i) = .timeout ⟨some ssid⟩ := by
      intro i hi
      have := htos (i + 1) (by omega)
      simpa [Nat.add_assoc, Nat.add_comm 1 i] using this
    have hok1 : attempts (j + 1 + k) = .ok r := by
      have hjk : j + 1 + k = j + (k + 1) := by omega
      rw [hjk]; exact hok
    have hrec := ih (j + 1) rem rp (some ssid) (rc + 1) r (by omega) htail hok1
    rw [sendGo.eq_def, hA]
    simp only [Option.orElse, hrec]
    have hcount : rc + 1 + k = rc + (k + 1) := by omega
    rw [hcount]

/-- If every attempt within the budget times out, the loop surfaces a
timeout error. -/
theorem sendGo_all_timeout (attempts : Nat → AttemptOutcome) (rp : String) :
    ∀ (rem j : Nat) (prompt : String) (sid : Option String) (rc : Nat),
      (∀ i, i ≤ rem → ∃ e, attempts (j + i) = .timeout e) →
      ∃ e, (sendGo attempts rp j rem prompt sid rc).2 = .error (.timeout e) := by
  intro rem
  induction rem with
  | zero =>
    intro j prompt sid rc h
    obtain ⟨e, hA⟩ := h 0 (Nat.le_refl 0)
    simp only [Nat.add_zero] at hA
    exact ⟨e, by rw [sendGo.eq_def, hA]⟩
  | succ rem ih =>
    intro j prompt sid rc h
    obtain ⟨e, hA⟩ := h 0 (Nat.zero_le _)
    simp only [Nat.add_zero] at hA
    cases hrid : e.sessionId.orElse (fun _ => sid) with
    | none => exact ⟨e, by rw [sendGo.eq_def, hA]; simp [hrid]⟩
    | some rid =>
      have htail : ∀ i, i ≤ rem → ∃ e, attempts (j + 1 + i) = .timeout e := by
        intro i hi
        have := h (i + 1) (by omega)
        simpa [Nat.add_assoc, Nat.add_comm 1 i] using this
      obtain ⟨e2, he2⟩ := ih (j + 1) rp (some rid) (rc + 1) htail
      exact ⟨e2, by rw [sendGo.eq_def, hA]; simp [hrid, he2]⟩

/-- C2: the timeout retry policy of ClaudeBridge.send.  (a) When every
timeout error carries the session id s, every retry invocation after the
first resumes s with the fixed continuation prompt.  (b) A timeout on the
first attempt with no session id known surfaces that original timeout error
with no further invocation.  (c) With retry budget N, timeouts with known
session ids on the first k attempts (k ≤ N) followed by a success yield that
response with reported retry count k.  (d) Timeouts on all N+1 attempts make
send fail with a timeout error. -/
theorem claude_send_retry_spec :
    (∀ (attempts : Nat → AttemptOutcome) (N : Nat) (rp p : String)
        (sid0 : Option String) (s : String),
      (∀ i e, attempts i = .timeout e → e.sessionId = some s) →
      ∀ c ∈ (send attempts N rp p sid0).1.tail, c = (⟨rp, some s⟩ : AttemptCall)) ∧
    (∀ (attempts : Nat → AttemptOutcome) (N : Nat) (rp p : String) (e : TimeoutErr),
      attempts 0 = .timeout e → e.sessionId = none →
      send attempts N rp p none = ([⟨p, none⟩], .error (.timeout e))) ∧
    (∀ (attempts : Nat → AttemptOutcome) (N : Nat) (rp p : String)
        (sid0 : Option String) (k : Nat) (r : BridgeResponse),
      k ≤ N →
      (∀ i, i < k → ∃ ssid, attempts i = .timeout ⟨some ssid⟩) →
      attempts k = .ok r →
      (send attempts N rp p sid0).2 = .ok (r, k)) ∧
    (∀ (attempts : Nat → AttemptOutcome) (N : Nat) (rp p : String)
        (sid0 : Option String),
      (∀ i, i ≤ N → ∃ e, attempts i = .timeout e) →
      ∃ e, (send attempts N rp p sid0).2 = .error (.timeout e)) := by
  refine ⟨?_, ?_, ?_, ?_⟩
  · intro attempts N rp p sid0 s h c hc
    rw [send, sendGo.eq_def] at hc
    cases hA : attempts 0 with
    | ok r => rw [hA] at hc; simp at hc
    | fatal m => rw [hA] at hc; simp at hc
    | timeout e =>
      have hs := h 0 e hA
      rw [hA] at hc
      cases N with
      | zero => simp at hc
      | succ N =>
        simp [hs, Option.orElse] at hc
        exact sendGo_calls_const attempts rp s h N 1 1 c hc
  · intro attempts N rp p e hA hsid
    rw [send, sendGo.eq_def, hA]
    cases N with
    | zero => simp
    | succ N => simp [hsid, Option.orElse]
  · intro attempts N rp p sid0 k r hk htos hok
    have := sendGo_success_after attempts rp k 0 N p sid0 0 r hk
      (by simpa using htos) (by simpa using hok)
    simpa [send] using this
  · intro attempts N rp p sid0 h
    exact sendGo_all_timeout attempts rp N 0 p sid0 0 (by simpa using h)

/-- Witness for C2: with retry budget 2 and a subprocess timing out (with a
known session id) on attempts 0 and 1 then succeeding, send reports retry
count 2. -/
theorem claude_send_retry_spec_witness :
    (send (fun i => if i < 2 then .timeout ⟨some "s"⟩ else .ok ⟨"done", "s"⟩)
        2 "Continue." "hello" none).2 =
      .ok (⟨"done", "s"⟩, 2) :=
  claude_send_retry_spec.2.2.1
    (fun i => if i < 2 then .timeout ⟨some "s"⟩ else .ok ⟨"done", "s"⟩)
    2 "Continue." "hello" none 2 ⟨"done", "s"⟩ (by decide)
    (fun i hi => ⟨"s", by interval_cases i <;> rfl⟩) rfl

/-! ## Hook inbox file watching (hook-inbox.ts, single events.jsonl variant) -/

/-- Is b a UTF-8 continuation byte. -/
def isCont (b : Nat) : Bool :=
  decide (0x80 ≤ b ∧ b < 0xC0)

/-- Is c1 an admissible second byte after the three-byte lead b: a
continuation byte outside the overlong range (lead 0xE0 requires
0xA0..0xBF) and outside the surrogate range (lead 0xED caps at 0x9F). -/
def isSecond3 (b c1 : Nat) : Bool :=
  isCont c1 && !(b == 0xE0 && c1 < 0xA0) && !(b == 0xED && 0xA0 ≤ c1)

/-- Is c1 an admissible second byte after the four-byte lead b: a
continuation byte outside the overlong range (lead 0xF0 requires
0x90..0xBF) and within the Unicode range (lead 0xF4 caps at 0x8F). -/
def isSecond4 (b c1 : Nat) : Bool :=
  isCont c1 && !(b == 0xF0 && c1 < 0x90) && !(b == 0xF4 && 0x90 ≤ c1)

/-- Fuel-driven core of UTF-8 decoding following the WHATWG decoder that
Buffer.toString implements: a malformed byte yields U+FFFD and decoding
resumes at the offending byte; a well-formed but incomplete sequence at the
end of the buffer yields a single U+FFFD.  The fuel is an upper bound on the
number of bytes left, so structural recursion on it makes the function
reduce inside the kernel. -/
def decodeUtf8Aux : Nat → List Nat → List Char
  | 0, _ => []
  | _ + 1, [] => []
  | fuel + 1, b :: rest =>
    if b < 0x80 then
      Char.ofNat b :: decodeUtf8Aux fuel rest
    else if b < 0xC2 then
      -- stray continuation byte (0x80..0xBF) or overlong two-byte lead (0xC0, 0xC1)
      '�' :: decodeUtf8Aux fuel rest
    else if b < 0xE0 then
      match rest with
      | c1 :: rest1 =>
        if isCont c1 then
          Char.ofNat ((b - 0xC0) * 0x40 + (c1 - 0x80)) :: decodeUtf8Aux fuel rest1
        else '�' :: decodeUtf8Aux fuel (c1 :: rest1)
      | [] => ['�']
    else if b < 0xF0 then
      match rest with
      | c1 :: c2 :: rest2 =>
        if isSecond3 b c1 then
          if isCont c2 then
            Char.ofNat ((b - 0xE0) * 0x1000 + (c1 - 0x80) * 0x40 + (c2 - 0x80))
              :: decodeUtf8Aux fuel rest2
          else '�' :: decodeUtf8Aux fuel (c2 :: rest2)
        else '�' :: decodeUtf8Aux fuel (c1 :: c2 :: rest2)
      | [c1] =>
        if isSecond3 b c1 then ['�']
        else '�' :: decodeUtf8Aux fuel [c1]
      | [] => ['�']
    else if b < 0xF5 then
      match rest with
      | c1 :: c2 :: c3 :: rest3 =>
        if isSecond4 b c1 then
          if isCont c2 then
            if isCont c3 then
              Char.ofNat
                  ((b - 0xF0) * 0x40000 + (c1 - 0x80) * 0x1000 + (c2 - 0x80) * 0x40 + (c3 - 0x80))
                :: decodeUtf8Aux fuel rest3
            else '�' :: decodeUtf8Aux fuel (c3 :: rest3)
          else '�' :: decodeUtf8Aux fuel (c2 :: c3 :: rest3)
        else '�' :: decodeUtf8Aux fuel (c1 :: c2 :: c3 :: rest3)
      | [c1, c2] =>
        if isSecond4 b c1 then
          if isCont c2 then ['�']
          else '�' :: decodeUtf8Aux fuel [c2]
        else '�' :: decodeUtf8Aux fuel [c1, c2]
      | [c1] =>
        if isSecond4 b c1 then ['�']
        else '�' :: decodeUtf8Aux fuel [c1]
      | [] => ['�']
    else
      -- invalid leading byte (0xF5..0xFF)
      '�' :: decodeUtf8Aux fuel rest

/-- UTF-8 decoding of a byte list (as a character list), modelling
Buffer.toString with the utf-8 encoding: well-formed sequences decode to
their character, while a stray continuation byte, an invalid leading byte,
an invalid continuation, an overlong or surrogate or out-of-range encoding,
and an incomplete sequence at the end of the buffer each produce the U+FFFD
replacement character. -/
def decodeUtf8 (l : List Nat) : List Char :=
  decodeUtf8Aux l.length l

/-- String.prototype.split with separator newline, over character lists:
every occurrence of a line feed opens a new segment; always nonempty. -/
def splitNl : List Char → List (List Char)
  | [] => [[]]
  | c :: rest =>
    match splitNl rest with
    | [] => [[]]
    | h :: t => if c = '\n' then [] :: h :: t else (c :: h) :: t

/-- Whitespace test of String.prototype.trim, restricted to the ASCII
whitespace characters that can occur in a JSONL hook log. -/
def isWsp (c : Char) : Bool :=
  c = ' ' || c = '\n' || c = '\t' || c = '\r'

/-- String.prototype.trim over character lists. -/
def trimChars (l : List Char) : List Char :=
  ((l.dropWhile isWsp).reverse.dropWhile isWsp).reverse

/-- Watcher state of HookInbox for the single shared events file: the tracked
byte offset, the leftover of the last incomplete line (held, as in the source,
as an already-decoded string), and the lines emitted so far.  Emission is
modelled at the line level: the JSON parse and the per-kind normalisation
consume each complete trimmed nonempty line unchanged, so the model records
the line handed to them. -/
structure HookInboxState where
  offset : Nat
  leftover : List Char
  emitted : List (List Char)
  deriving DecidableEq

/-- HookInbox.start (hook-inbox.ts lines 998-1030): the offset is initialised
to the current file size, so pre-existing content from earlier process
lifetimes is skipped; leftover starts empty. -/
def hookStart (file : List Nat) : HookInboxState :=
  { offset := file.length, leftover := [], emitted := [] }

/-- One invocation of HookInbox.readNewLines (hook-inbox.ts lines 1112-1167):
if the file has grown past the tracked offset, read the new bytes, decode
them as UTF-8, prepend the leftover, split on line feeds keeping the final
segment as the new leftover, and emit every remaining nonempty trimmed
line. -/
def readNewLines (file : List Nat) (st : HookInboxState) : HookInboxState :=
  if file.length ≤ st.offset then st
  else
    let chunk := file.drop st.offset
    let newData := st.leftover ++ decodeUtf8 chunk
    let parts := splitNl newData
    { offset := file.length,
      leftover := parts.getLastD [],
      emitted := st.emitted ++ (parts.dropLast.map trimChars).filter (· ≠ []) }

/-- Events driving the watcher: the external agent appends bytes to the
shared log, and the watcher (via fs.watch or the fallback poll) runs
readNewLines. -/
inductive InboxOp
  | append (bytes : List Nat)
  | read

/-- One step of the watcher world: an append grows the file, a read runs
readNewLines over the current file. -/
def inboxStep (fs : List Nat × HookInboxState) (op : InboxOp) : List Nat × HookInboxState :=
  match op with
  | .append bs => (fs.1 ++ bs, fs.2)
  | .read => (fs.1, readNewLines fs.1 fs.2)

/-- Start the watcher over a log file currently holding file0 (the baseline
capture), then run the given operations. -/
def inboxRun (file0 : List Nat) (ops : List InboxOp) : List Nat × HookInboxState :=
  ops.foldl inboxStep (file0, hookStart file0)

/-- The relation between a watcher world started over baseline f0 and one
started over the empty file: the file differs exactly by the f0 prefix, the
offset by its length, and leftover and emitted states coincide. -/
def BaselineShift (f0 : List Nat) (p q : List Nat × HookInboxState) : Prop :=
  p.1 = f0 ++ q.1 ∧ p.2.offset = f0.length + q.2.offset ∧
    p.2.leftover = q.2.leftover ∧ p.2.emitted = q.2.emitted

/-- Every watcher step preserves the baseline shift relation. -/
theorem inboxStep_baselineShift (f0 : List Nat) (p q : List Nat × HookInboxState)
    (op : InboxOp) (h : BaselineShift f0 p q) :
    BaselineShift f0 (inboxStep p op) (inboxStep q op) := by
  obtain ⟨hf, ho, hl, he⟩ := h
  cases op with
  | append bs =>
    exact ⟨by simp [inboxStep, hf], by simp [inboxStep, ho], by simp [inboxStep, hl],
      by simp [inboxStep, he]⟩
  | read =>
    simp only [inboxStep, BaselineShift, readNewLines]
    have hlen : p.1.length = f0.length + q.1.length := by simp [hf]
    by_cases hc : q.1.length ≤ q.2.offset
    · have hc1 : p.1.length ≤ p.2.offset := by omega
      simp [hc, hc1, hf, ho, hl, he]
    · have hc1 : ¬ p.1.length ≤ p.2.offset := by omega
      have hdrop : p.1.drop p.2.offset = q.1.drop q.2.offset := by
        rw [hf, ho, List.drop_append]
      simp [hc, hc1, hf, ho, hl, he, hdrop, hlen]

/-- C7: restarting the Hook Inbox never replays content appended before the
baseline-offset capture at start: for every pre-existing file content f0 and
every sequence of appends and reads, the lines emitted (and the leftover
held) are exactly those of the same run over an initially empty log — only
bytes past the baseline offset are ever read. -/
theorem hook_inbox_baseline_no_replay (f0 : List Nat) (ops : List InboxOp) :
    (inboxRun f0 ops).2.emitted = (inboxRun [] ops).2.emitted ∧
      (inboxRun f0 ops).2.leftover = (inboxRun [] ops).2.leftover := by
  have key : BaselineShift f0 (inboxRun f0 ops) (inboxRun [] ops) := by
    rw [inboxRun, inboxRun]
    have h0 : BaselineShift f0 (f0, hookStart f0) ([], hookStart []) := by
      refine ⟨by simp, by simp [hookStart], rfl, rfl⟩
    generalize hp : (f0, hookStart f0) = p at h0 ⊢
    generalize hq : (([] : List Nat), hookStart []) = q at h0 ⊢
    clear hp hq
    induction ops generalizing p q with
    | nil => exact h0
    | cons op rest ih =>
      exact ih (inboxStep p op) (inboxStep q op) (inboxStep_baselineShift f0 p q op h0)
  exact ⟨key.2.2.2, key.2.2.1⟩

/-- C4: a hook-log line holding the two-byte UTF-8 character é, appended in
two chunks split inside the character with a watcher read between the
chunks, is emitted as exactly one event — but its content is two U+FFFD
replacement characters, not the original line: the leftover is held as an
already-decoded string, so the partial byte 0xC3 is decoded (and destroyed)
before its continuation byte 0xA9 arrives. -/
theorem hook_inbox_utf8_boundary_corruption :
    (inboxRun [] [.append [0xC3], .read, .append [0xA9, 0x0A], .read]).2.emitted
        = ["��".toList] ∧
      "��".toList ≠ "é".toList := by
  constructor
  · decide
  · decide

/-! ## Run coordinator hook event routing (run-manager.ts, executeInner) -/

/-- Events observed by one run, in arrival order: raw protocol lines (system
events possibly carrying a session id, and all other parsed lines), and the
six hook kinds, each with the session id its payload carries.  none models a
missing or empty session id field, which JavaScript treats as falsy. -/
inductive RunEvent
  | streamSystem (sid : Option String)
  | streamOther
  | hookSessionStart (sid : Option String)
  | hookToolUse (sid : Option String)
  | hookToolFailure (sid : Option String)
  | hookSubagentStart (sid : Option String)
  | hookSubagentStop (sid : Option String)
  | hookStop (sid : Option String)
  deriving DecidableEq

/-- Run-scoped state of executeInner: the session id from the first protocol
system event, the session id from the first hook session-start, the hook
records appended to the Event Store as (session id, hook type) pairs, the
session ids under which raw protocol events were appended, and the sizes of
the accumulated activity lists. -/
structure RunState where
  streamSessionId : Option String
  hookSessionId : Option String
  hookAppended : List (String × String)
  streamAppended : List String
  toolActs : Nat
  subagentActs : Nat
  deriving DecidableEq

/-- State at the start of executeInner. -/
def initialRunState : RunState := ⟨none, none, [], [], 0, 0⟩

/-- The id a run attributes hook events to (run-manager.ts, the expression
streamSessionId || hookSessionId): the protocol-stream id takes precedence,
else the id of the first hook session-start. -/
def established (st : RunState) : Option String :=
  st.streamSessionId.orElse (fun _ => st.hookSessionId)

/-- Common body of the onToolUse / onToolFailure / onSubagentStart /
onSubagentStop handlers (run-manager.ts lines 111-145): the event session id
(falling back to the hook-established id) is compared against
streamSessionId || hookSessionId; only on a match is an activity accumulated
and a hook record appended. -/
def fourKindStep (st : RunState) (evSid : Option String) (kind : String)
    (isTool : Bool) : RunState :=
  match evSid.orElse (fun _ => st.hookSessionId) with
  | some s =>
    if some s = established st then
      { st with hookAppended := st.hookAppended ++ [(s, kind)],
                toolActs := st.toolActs + (if isTool then 1 else 0),
                subagentActs := st.subagentActs + (if isTool then 0 else 1) }
    else st
  | none => st

/-- One event handled by the run (run-manager.ts lines 93-202): the
onSessionStart / onToolUse / onToolFailure / onSubagentStart /
onSubagentStop / onStop hook handlers and the onRawEvent protocol
callback. -/
def runStep (st : RunState) : RunEvent → RunState
  | .streamSystem sid =>
    let st1 :=
      match sid with
      | some s => if st.streamSessionId = none then { st with streamSessionId := some s } else st
      | none => st
    match st1.streamSessionId with
    | some s => { st1 with streamAppended := st1.streamAppended ++ [s] }
    | none => st1
  | .streamOther =>
    match st.streamSessionId with
    | some s => { st with streamAppended := st.streamAppended ++ [s] }
    | none => st
  | .hookSessionStart sid =>
    match sid with
    | some s =>
      if st.hookSessionId = none then
        { st with hookSessionId := some s,
                  hookAppended := st.hookAppended ++ [(s, "session-start")] }
      else st
    | none => st
  | .hookToolUse sid => fourKindStep st sid "tool-use" true
  | .hookToolFailure sid => fourKindStep st sid "tool-failure" true
  | .hookSubagentStart sid => fourKindStep st sid "subagent-start" false
  | .hookSubagentStop sid => fourKindStep st sid "subagent-stop" false
  | .hookStop sid =>
    match sid.orElse (fun _ => st.hookSessionId) with
    | some s => { st with hookAppended := st.hookAppended ++ [(s, "stop")] }
    | none => st

/-- A whole run: fold the handlers over the arriving events. -/
def runTrace (evs : List RunEvent) : RunState :=
  evs.foldl runStep initialRunState

/-- Counterexample to C1 as stated: with the run's id established as A by the
protocol stream, a stop hook event carrying the foreign session id B is
nevertheless persisted to the Event Store (under B). -/
theorem run_hook_stop_nonmatching_persisted :
    (runTrace [.streamSystem (some "A"), .hookStop (some "B")]).hookAppended
        = [("B", "stop")] ∧
      established (runTrace [.streamSystem (some "A"), .hookStop (some "B")]) = some "A" ∧
      ("B" : String) ≠ "A" := by
  refine ⟨by decide, by decide, by decide⟩

/-- C1 (amended): session-id filtering per hook kind.  (a) A tool-use,
tool-failure, subagent-start or subagent-stop event only ever appends a
record whose session id is the established id and equals the event id after
the hook fallback.  (b) Those four kinds accumulate an activity only under
the same match.  (c) A stop event is persisted under its own (or the
hook-established) session id whenever one is known — matching or not — and
dropped only when none is known.  (d) A session-start event is persisted
exactly when it is the first id-carrying session-start of the run, under its
own id. -/
theorem run_hook_filtering_per_kind :
    (∀ (st : RunState) (sid : Option String) (ev : RunEvent),
      (ev = .hookToolUse sid ∨ ev = .hookToolFailure sid ∨
        ev = .hookSubagentStart sid ∨ ev = .hookSubagentStop sid) →
      ∀ e ∈ (runStep st ev).hookAppended, e ∈ st.hookAppended ∨
        (some e.1 = established st ∧
          some e.1 = sid.orElse (fun _ => st.hookSessionId))) ∧
    (∀ (st : RunState) (sid : Option String) (ev : RunEvent),
      (ev = .hookToolUse sid ∨ ev = .hookToolFailure sid ∨
        ev = .hookSubagentStart sid ∨ ev = .hookSubagentStop sid) →
      (runStep st ev).toolActs + (runStep st ev).subagentActs ≠
          st.toolActs + st.subagentActs →
      sid.orElse (fun _ => st.hookSessionId) = established st ∧
        (established st).isSome) ∧
    (∀ (st : RunState) (sid : Option String),
      (∀ s, sid.orElse (fun _ => st.hookSessionId) = some s →
        (runStep st (.hookStop sid)).hookAppended = st.hookAppended ++ [(s, "stop")]) ∧
      (sid.orElse (fun _ => st.hookSessionId) = none →
        runStep st (.hookStop sid) = st)) ∧
    (∀ (st : RunState) (s : String),
      (st.hookSessionId = none →
        (runStep st (.hookSessionStart (some s))).hookAppended =
          st.hookAppended ++ [(s, "session-start")]) ∧
      (st.hookSessionId ≠ none →
        runStep st (.hookSessionStart (some s)) = st) ∧
      runStep st (.hookSessionStart none) = st) := by
  refine ⟨?_, ?_, ?_, ?_⟩
  · intro st sid ev hev e he
    have key : ∀ kind b, e ∈ (fourKindStep st sid kind b).hookAppended →
        e ∈ st.hookAppended ∨
          (some e.1 = established st ∧
            some e.1 = sid.orElse (fun _ => st.hookSessionId)) := by
      intro kind b hmem
      rw [fourKindStep] at hmem
      cases hsid : sid.orElse (fun _ => st.hookSessionId) with
      | none => rw [hsid] at hmem; exact Or.inl hmem
      | some s =>
        rw [hsid] at hmem
        by_cases hm : some s = established st
        · simp [hm] at hmem
          rcases hmem with hmem | hmem
          · exact Or.inl hmem
          · subst hmem
            exact Or.inr ⟨hm, rfl⟩
        · simp [hm] at hmem
          exact Or.inl hmem
    rcases hev with rfl | rfl | rfl | rfl <;> exact key _ _ he
  · intro st sid ev hev hne
    have key : ∀ kind b, (fourKindStep st sid kind b).toolActs +
          (fourKindStep st sid kind b).subagentActs ≠ st.toolActs + st.subagentActs →
        sid.orElse (fun _ => st.hookSessionId) = established st ∧
          (established st).isSome := by
      intro kind b hne
      rw [fourKindStep] at hne
      cases hsid : sid.orElse (fun _ => st.hookSessionId) with
      | none => rw [hsid] at hne; exact absurd rfl hne
      | some s =>
        rw [hsid] at hne
        by_cases hm : some s = established st
        · exact ⟨hm, by rw [← hm]; rfl⟩
        · simp [hm] at hne
    rcases hev with rfl | rfl | rfl | rfl <;> exact key _ _ hne
  · intro st sid
    constructor
    · intro s hs
      rw [runStep, hs]
    · intro hs
      rw [runStep, hs]
  · intro st s
    refine ⟨?_, ?_, rfl⟩
    · intro h
      rw [runStep]
      simp [h]
    · intro h
      rw [runStep]
      simp [h]

/-- Witness for the amended C1: with the established id A coming from the
protocol stream and no hook session-start seen, a stop event carrying B is
persisted under B. -/
theorem run_hook_filtering_per_kind_witness :
    (runStep ⟨some "A", none, [], [], 0, 0⟩ (.hookStop (some "B"))).hookAppended
      = [("B", "stop")] :=
  (run_hook_filtering_per_kind.2.2.1 ⟨some "A", none, [], [], 0, 0⟩ (some "B")).1 "B" rfl

/-! ## Event store sequence numbering (event-store.ts) -/

/-- Sequence-numbering state of the Event Store: the persisted per-session
stream and hook logs (each entry holds the assigned sequence number and its
payload, in file order) and the in-memory per-session counters streamSeqs
and hookSeqs (event-store.ts lines 570-571). -/
structure SeqStore where
  streamLog : String → List (Nat × String)
  hookLog : String → List (Nat × String)
  streamSeqs : String → Nat
  hookSeqs : String → Nat

/-- A store over no persisted data, in a fresh process. -/
def emptySeqStore : SeqStore :=
  ⟨fun _ => [], fun _ => [], fun _ => 0, fun _ => 0⟩

/-- appendStreamEvent (event-store.ts lines 617-638): the next sequence
number is the in-memory counter plus one; the counter is updated and the
entry appended to the session's stream.jsonl. -/
def appendStreamEvent (st : SeqStore) (sid payload : String) : SeqStore :=
  let seq := st.streamSeqs sid + 1
  { st with
    streamLog := fun s => if s = sid then st.streamLog s ++ [(seq, payload)] else st.streamLog s,
    streamSeqs := fun s => if s = sid then seq else st.streamSeqs s }

/-- appendHookEvent (event-store.ts lines 641-663): same numbering against
the hook counter and the session's hooks.jsonl. -/
def appendHookEvent (st : SeqStore) (sid payload : String) : SeqStore :=
  let seq := st.hookSeqs sid + 1
  { st with
    hookLog := fun s => if s = sid then st.hookLog s ++ [(seq, payload)] else st.hookLog s,
    hookSeqs := fun s => if s = sid then seq else st.hookSeqs s }

/-- Restart of the storing process over the same persisted data: a new
EventStore instance keeps the on-disk logs but its in-memory sequence maps
start empty — the constructor only loads the index, never the counters
(event-store.ts lines 575-580). -/
def restartStore (st : SeqStore) : SeqStore :=
  { st with streamSeqs := fun _ => 0, hookSeqs := fun _ => 0 }

/-- Operations against the sequencing state. -/
inductive StoreOp
  | appendStream (sid payload : String)
  | appendHook (sid payload : String)
  | restart
  deriving DecidableEq

/-- One operation applied to the store. -/
def storeStep (st : SeqStore) : StoreOp → SeqStore
  | .appendStream sid payload => appendStreamEvent st sid payload
  | .appendHook sid payload => appendHookEvent st sid payload
  | .restart => restartStore st

/-- Run a list of operations against a fresh store over no data. -/
def storeRun (ops : List StoreOp) : SeqStore :=
  ops.foldl storeStep emptySeqStore

/-- Append a list of payloads to one session's stream log. -/
def appendStreamMany (st : SeqStore) (sid : String) (ps : List String) : SeqStore :=
  ps.foldl (fun st p => appendStreamEvent st sid p) st

/-- Append a list of payloads to one session's hook log. -/
def appendHookMany (st : SeqStore) (sid : String) (hs : List String) : SeqStore :=
  hs.foldl (fun st p => appendHookEvent st sid p) st

/-- The entries a run of appends starting at counter value n produces:
consecutive sequence numbers n+1, n+2, ... paired with the payloads. -/
def numberedFrom : Nat → List String → List (Nat × String)
  | _, [] => []
  | n, p :: ps => (n + 1, p) :: numberedFrom (n + 1) ps

theorem numberedFrom_map_snd (ps : List String) : ∀ n, (numberedFrom n ps).map Prod.snd = ps := by
  induction ps with
  | nil => intro n; rfl
  | cons p ps ih => intro n; simp [numberedFrom, ih]

theorem numberedFrom_head_fst (ps : List String) (n : Nat) :
    ∀ x ∈ ((numberedFrom n ps).map Prod.fst).head?, x = n + 1 := by
  cases ps <;> simp [numberedFrom]

theorem chain_lt_numberedFrom (ps : List String) :
    ∀ n, ((numberedFrom n ps).map Prod.fst).Chain' (· < ·) := by
  induction ps with
  | nil => intro n; simp [numberedFrom]
  | cons p ps ih =>
    intro n
    rw [numberedFrom, List.map_cons, List.chain'_cons']
    refine ⟨?_, ih (n + 1)⟩
    intro y hy
    have := numberedFrom_head_fst ps (n + 1) y hy
    omega

theorem numberedFrom_map_fst (ps : List String) :
    ∀ n, (numberedFrom n ps).map Prod.fst =
      (List.range ps.length).map (fun i => n + (i + 1)) := by
  induction ps with
  | nil => intro n; rfl
  | cons p ps ih =>
    intro n
    rw [numberedFrom, List.map_cons, ih (n + 1), List.length_cons,
      List.range_succ_eq_map]
    simp only [List.map_cons, List.map_map]
    refine List.cons_eq_cons.mpr ⟨by omega, ?_⟩
    exact List.map_congr_left (fun i _ => by simp [Function.comp]; omega)

/-- What a block of stream appends to one session does: the log grows by the
consecutive block starting after the current counter, the counter advances
by the block length, and the hook side is untouched. -/
theorem appendStreamMany_spec (ps : List String) :
    ∀ (st : SeqStore) (sid : String),
      (appendStreamMany st sid ps).streamLog sid =
          st.streamLog sid ++ numberedFrom (st.streamSeqs sid) ps ∧
        (appendStreamMany st sid ps).streamSeqs sid = st.streamSeqs sid + ps.length ∧
        (appendStreamMany st sid ps).hookLog = st.hookLog ∧
        (appendStreamMany st sid ps).hookSeqs = st.hookSeqs := by
  induction ps with
  | nil => intro st sid; simp [appendStreamMany, numberedFrom]
  | cons p ps ih =>
    intro st sid
    have hstep : appendStreamMany st sid (p :: ps) =
        appendStreamMany (appendStreamEvent st sid p) sid ps := rfl
    obtain ⟨h1, h2, h3, h4⟩ := ih (appendStreamEvent st sid p) sid
    rw [hstep]
    refine ⟨?_, ?_, h3, h4⟩
    · rw [h1]
      simp [appendStreamEvent, numberedFrom]
    · rw [h2]
      simp [appendStreamEvent]
      omega

/-- Hook-side mirror of appendStreamMany_spec. -/
theorem appendHookMany_spec (hs : List String) :
    ∀ (st : SeqStore) (sid : String),
      (appendHookMany st sid hs).hookLog sid =
          st.hookLog sid ++ numberedFrom (st.hookSeqs sid) hs ∧
        (appendHookMany st sid hs).hookSeqs sid = st.hookSeqs sid + hs.length ∧
        (appendHookMany st sid hs).streamLog = st.streamLog ∧
        (appendHookMany st sid hs).streamSeqs = st.streamSeqs := by
  induction hs with
  | nil => intro st sid; simp [appendHookMany, numberedFrom]
  | cons p hs ih =>
    intro st sid
    have hstep : appendHookMany st sid (p :: hs) =
        appendHookMany (appendHookEvent st sid p) sid hs := rfl
    obtain ⟨h1, h2, h3, h4⟩ := ih (appendHookEvent st sid p) sid
    rw [hstep]
    refine ⟨?_, ?_, h3, h4⟩
    · rw [h1]
      simp [appendHookEvent, numberedFrom]
    · rw [h2]
      simp [appendHookEvent]
      omega

/-- The sequencing invariant of a store in its first process lifetime: per
session and stream, the persisted sequence numbers are exactly 1..len in
order, and the in-memory counter equals the log length. -/
def SeqInv (st : SeqStore) : Prop :=
  ∀ sid,
    (st.streamLog sid).map Prod.fst =
        (List.range (st.streamLog sid).length).map (· + 1) ∧
      st.streamSeqs sid = (st.streamLog sid).length ∧
      (st.hookLog sid).map Prod.fst =
        (List.range (st.hookLog sid).length).map (· + 1) ∧
      st.hookSeqs sid = (st.hookLog sid).length

theorem seqInv_appendStream (st : SeqStore) (h : SeqInv st) (sid payload : String) :
    SeqInv (appendStreamEvent st sid payload) := by
  intro s
  obtain ⟨h1, h2, h3, h4⟩ := h s
  by_cases hs : s = sid
  · subst hs
    have hlog : (appendStreamEvent st s payload).streamLog s =
        st.streamLog s ++ [((st.streamLog s).length + 1, payload)] := by
      simp [appendStreamEvent, h2]
    have hseq : (appendStreamEvent st s payload).streamSeqs s =
        (st.streamLog s).length + 1 := by
      simp [appendStreamEvent, h2]
    refine ⟨?_, ?_, by simpa [appendStreamEvent] using h3, by simpa [appendStreamEvent] using h4⟩
    · rw [hlog, List.map_append, List.length_append, h1]
      simp [List.range_succ]
    · rw [hseq, hlog]
      simp
  · refine ⟨?_, ?_, by simpa [appendStreamEvent] using h3, by simpa [appendStreamEvent] using h4⟩
    · simpa [appendStreamEvent, hs] using h1
    · simpa [appendStreamEvent, hs] using h2

theorem seqInv_appendHook (st : SeqStore) (h : SeqInv st) (sid payload : String) :
    SeqInv (appendHookEvent st sid payload) := by
  intro s
  obtain ⟨h1, h2, h3, h4⟩ := h s
  by_cases hs : s = sid
  · subst hs
    have hlog : (appendHookEvent st s payload).hookLog s =
        st.hookLog s ++ [((st.hookLog s).length + 1, payload)] := by
      simp [appendHookEvent, h4]
    have hseq : (appendHookEvent st s payload).hookSeqs s =
        (st.hookLog s).length + 1 := by
      simp [appendHookEvent, h4]
    refine ⟨by simpa [appendHookEvent] using h1, by simpa [appendHookEvent] using h2, ?_, ?_⟩
    · rw [hlog, List.map_append, List.length_append, h3]
      simp [List.range_succ]
    · rw [hseq, hlog]
      simp
  · refine ⟨by simpa [appendHookEvent] using h1, by simpa [appendHookEvent] using h2, ?_, ?_⟩
    · simpa [appendHookEvent, hs] using h3
    · simpa [appendHookEvent, hs] using h4

/-- Counterexample to C3 as stated: append under session s, restart the
storing process over the same persisted data, append again — the persisted
stream log reads back with sequence numbers [1, 1], which is not strictly
increasing. -/
theorem store_seq_restart_counterexample :
    ((storeRun [.appendStream "s" "a", .restart, .appendStream "s" "b"]).streamLog "s").map
          Prod.fst = [1, 1] ∧
      ¬ (([1, 1] : List Nat).Chain' (· < ·)) := by
  refine ⟨by decide, ?_⟩
  intro hc
  rw [List.chain'_cons] at hc
  exact absurd hc.1 (lt_irrefl 1)

/-- C3 (amended): within a single process lifetime the sequence numbers per
(session, stream) are consecutive and strictly increasing — every block of
appends extends the log by the numbers counter+1, ..., counter+n, and from a
fresh store any restart-free operation sequence leaves every (session,
stream) log numbered exactly 1..len in order — but the counters live only in
memory: a restart over the same persisted data keeps both logs yet resets
both counters to zero, so numbering restarts at 1. -/
theorem store_seq_lifetime_monotone :
    (∀ (st : SeqStore) (sid : String) (ps : List String),
      (appendStreamMany st sid ps).streamLog sid =
        st.streamLog sid ++ numberedFrom (st.streamSeqs sid) ps) ∧
    (∀ (st : SeqStore) (sid : String) (hs : List String),
      (appendHookMany st sid hs).hookLog sid =
        st.hookLog sid ++ numberedFrom (st.hookSeqs sid) hs) ∧
    (∀ ops : List StoreOp, (∀ op ∈ ops, op ≠ StoreOp.restart) → SeqInv (storeRun ops)) ∧
    (∀ st : SeqStore,
      (restartStore st).streamLog = st.streamLog ∧
        (restartStore st).hookLog = st.hookLog ∧
        (restartStore st).streamSeqs = (fun _ => 0) ∧
        (restartStore st).hookSeqs = (fun _ => 0)) := by
  refine ⟨fun st sid ps => (appendStreamMany_spec ps st sid).1,
    fun st sid hs => (appendHookMany_spec hs st sid).1, ?_, fun st => ⟨rfl, rfl, rfl, rfl⟩⟩
  intro ops hops
  have start : SeqInv emptySeqStore := by
    intro sid; refine ⟨rfl, rfl, rfl, rfl⟩
  rw [storeRun]
  generalize hst : emptySeqStore = st0 at start
  clear hst
  induction ops generalizing st0 with
  | nil => exact start
  | cons op rest ih =>
    have hop := hops op (List.mem_cons_self op rest)
    have hrest : ∀ op ∈ rest, op ≠ StoreOp.restart :=
      fun o ho => hops o (List.mem_cons_of_mem op ho)
    rw [List.foldl_cons]
    refine ih hrest (storeStep st0 op) ?_
    cases op with
    | appendStream sid payload => exact seqInv_appendStream st0 start sid payload
    | appendHook sid payload => exact seqInv_appendHook st0 start sid payload
    | restart => exact absurd rfl hop

/-- Witness for the amended C3: one restart-free operation list, run from a
fresh store, satisfies the sequencing invariant. -/
theorem store_seq_lifetime_monotone_witness :
    SeqInv (storeRun [.appendStream "s" "a", .appendHook "s" "b", .appendStream "s" "c"]) :=
  store_seq_lifetime_monotone.2.2.1
    [.appendStream "s" "a", .appendHook "s" "b", .appendStream "s" "c"] (by decide)

/-- A fresh session with K stream appends followed by M hook appends. -/
def freshAppendKM (sid : String) (ps hs : List String) : SeqStore :=
  appendHookMany (appendStreamMany emptySeqStore sid ps) sid hs

/-- C8: appending K protocol events and then M hook events to a fresh
session and reading both streams back yields exactly the K and the M records
with their payloads in append order, numbered consecutively from 1, hence
with strictly increasing sequence numbers within each stream. -/
theorem store_fresh_append_readback (sid : String) (ps hs : List String) :
    (freshAppendKM sid ps hs).streamLog sid = numberedFrom 0 ps ∧
      (freshAppendKM sid ps hs).hookLog sid = numberedFrom 0 hs ∧
      ((freshAppendKM sid ps hs).streamLog sid).map Prod.snd = ps ∧
      ((freshAppendKM sid ps hs).hookLog sid).map Prod.snd = hs ∧
      (((freshAppendKM sid ps hs).streamLog sid).map Prod.fst).Chain' (· < ·) ∧
      (((freshAppendKM sid ps hs).hookLog sid).map Prod.fst).Chain' (· < ·) := by
  obtain ⟨hs1, hs2, hs3, hs4⟩ := appendStreamMany_spec ps emptySeqStore sid
  obtain ⟨hh1, hh2, hh3, hh4⟩ := appendHookMany_spec hs (appendStreamMany emptySeqStore sid ps) sid
  have hstream : (freshAppendKM sid ps hs).streamLog sid = numberedFrom 0 ps := by
    rw [freshAppendKM, hh3, hs1]
    simp [emptySeqStore]
  have hhook : (freshAppendKM sid ps hs).hookLog sid = numberedFrom 0 hs := by
    rw [freshAppendKM, hh1, hs3, hs4]
    simp [emptySeqStore]
  refine ⟨hstream, hhook, ?_, ?_, ?_, ?_⟩
  · rw [hstream, numberedFrom_map_snd]
  · rw [hhook, numberedFrom_map_snd]
  · rw [hstream]; exact chain_lt_numberedFrom ps 0
  · rw [hhook]; exact chain_lt_numberedFrom hs 0

/-! ## Event store summary index (event-store.ts) -/

/-- The per-session metadata record persisted in meta.json (event-store.ts,
SessionMeta); the sessionId field is the key of the metas map. -/
structure SessionMeta where
  createdAt : Nat
  lastUpdatedAt : Nat
  workspace : Option String
  firstPrompt : Option String
  model : Option String
  source : Option String
  totalCostUsd : Option ℚ
  totalDurationMs : Option Nat
  totalTurns : Option Nat
  streamEventCount : Nat
  hookEventCount : Nat
  deriving DecidableEq

/-- One in-memory summary index entry (event-store.ts, SessionIndexEntry). -/
structure SessionIndexEntry where
  createdAt : Nat
  lastUpdatedAt : Nat
  workspace : Option String
  firstPrompt : Option String
  deriving DecidableEq

/-- The partial metadata callers pass to ensureSession / updateSessionMeta:
the fields built at the call sites (run-manager.ts) — never the timestamps
or event counters, which the store owns.  The outer Option is key presence
(a JavaScript object spread copies only present keys); the inner Option is
the value, none for an undefined (or otherwise falsy) value — run-manager.ts
passes cost/duration/turns keys whose values may be undefined, and a present
key overrides the stored field even with an undefined value. -/
structure MetaUpdate where
  workspace : Option (Option String)
  firstPrompt : Option (Option String)
  model : Option (Option String)
  source : Option (Option String)
  totalCostUsd : Option (Option ℚ)
  totalDurationMs : Option (Option Nat)
  totalTurns : Option (Option Nat)
  deriving DecidableEq

/-- Update one key of a keyed map of records. -/
def updFun {α : Type} (f : String → Option α) (sid : String) (v : α) :
    String → Option α :=
  fun s => if s = sid then some v else f s

/-- State of the Event Store relevant to the summary index: the per-session
meta.json records (the source of truth) and the in-memory index mirrored to
index.json. -/
structure IndexStore where
  metas : String → Option SessionMeta
  index : String → Option SessionIndexEntry

/-- A store over no sessions. -/
def emptyIndexStore : IndexStore := ⟨fun _ => none, fun _ => none⟩

/-- The read-merge-write of updateSessionMeta on the meta record
(event-store.ts lines 666-688), the spread of updates over existing: a
present update key overrides the stored field — even with an undefined
value — an absent key keeps it; the creation timestamp and the counters
persist, lastUpdatedAt becomes now (one clock read, shared with the index
sync below). -/
def mergeMeta (m : SessionMeta) (u : MetaUpdate) (now : Nat) : SessionMeta :=
  { m with
    lastUpdatedAt := now,
    workspace := u.workspace.getD m.workspace,
    firstPrompt := u.firstPrompt.getD m.firstPrompt,
    model := u.model.getD m.model,
    source := u.source.getD m.source,
    totalCostUsd := u.totalCostUsd.getD m.totalCostUsd,
    totalDurationMs := u.totalDurationMs.getD m.totalDurationMs,
    totalTurns := u.totalTurns.getD m.totalTurns }

/-- updateSessionMeta (event-store.ts lines 666-688): merge into meta.json
when it exists, then sync the index entry when one exists — its timestamp
(merged.lastUpdatedAt, the same clock read), its workspace when the update
carries a truthy one, and its firstPrompt only when it carries a truthy one
and the entry had none. -/
def updateSessionMeta (st : IndexStore) (sid : String) (u : MetaUpdate)
    (now : Nat) : IndexStore :=
  match st.metas sid with
  | none => st
  | some m =>
    let st1 := { st with metas := updFun st.metas sid (mergeMeta m u now) }
    match st.index sid with
    | none => st1
    | some e =>
      { st1 with
        index := updFun st.index sid
          ({ e with
             lastUpdatedAt := now,
             workspace :=
               if (u.workspace.join).isSome then u.workspace.join else e.workspace,
             firstPrompt :=
               if (u.firstPrompt.join).isSome ∧ e.firstPrompt = none then u.firstPrompt.join
               else e.firstPrompt }) }

/-- ensureSession (event-store.ts lines 583-614): when no meta.json exists,
create it — one clock read for both timestamps, the update fields spread
over the defaults — and set the matching index entry; when it exists and an
update was passed, fall through to updateSessionMeta. -/
def ensureSession (st : IndexStore) (sid : String) (u : Option MetaUpdate)
    (now : Nat) : IndexStore :=
  match st.metas sid with
  | none =>
    let uw := (u.bind (·.workspace)).join
    let uf := (u.bind (·.firstPrompt)).join
    { metas :=
        updFun st.metas sid
          ({ createdAt := now, lastUpdatedAt := now,
             workspace := uw, firstPrompt := uf,
             model := (u.bind (·.model)).join, source := (u.bind (·.source)).join,
             totalCostUsd := (u.bind (·.totalCostUsd)).join,
             totalDurationMs := (u.bind (·.totalDurationMs)).join,
             totalTurns := (u.bind (·.totalTurns)).join,
             streamEventCount := 0, hookEventCount := 0 }),
      index :=
        updFun st.index sid
          ({ createdAt := now, lastUpdatedAt := now, workspace := uw, firstPrompt := uf }) }
  | some _ =>
    match u with
    | some upd => updateSessionMeta st sid upd now
    | none => st

/-- incrementMetaCount (event-store.ts lines 755-769): bump one counter in
meta.json and refresh its lastUpdatedAt with its own Date.now() read when
the record exists (a missing record is a no-op); the index is untouched
here. -/
def incrementMetaCount (st : IndexStore) (sid : String) (isStream : Bool)
    (now : Nat) : IndexStore :=
  { st with
    metas := fun s =>
      if s = sid then
        (st.metas s).map (fun m =>
          { m with
            lastUpdatedAt := now,
            streamEventCount := m.streamEventCount + (if isStream then 1 else 0),
            hookEventCount := m.hookEventCount + (if isStream then 0 else 1) })
      else st.metas s }

/-- touchSession (event-store.ts lines 747-753): refresh the index entry
timestamp with its own Date.now() read when one exists (a missing entry is
a no-op). -/
def touchSession (st : IndexStore) (sid : String) (now : Nat) : IndexStore :=
  { st with
    index := fun s =>
      if s = sid then (st.index s).map (fun e => { e with lastUpdatedAt := now })
      else st.index s }

/-- Index-relevant effect of appendStreamEvent (event-store.ts lines
617-638): ensureSession with no update, one counter bump, one touch.  The
source reads the clock separately in each of the three calls — nowE inside
ensureSession, now1 inside incrementMetaCount, now2 inside touchSession —
with synchronous file writes in between, so the three reads may differ. -/
def appendStreamMeta (st : IndexStore) (sid : String) (nowE now1 now2 : Nat) :
    IndexStore :=
  touchSession (incrementMetaCount (ensureSession st sid none nowE) sid true now1) sid now2

/-- Index-relevant effect of appendHookEvent (event-store.ts lines 641-663),
with the same three separate clock reads. -/
def appendHookMeta (st : IndexStore) (sid : String) (nowE now1 now2 : Nat) :
    IndexStore :=
  touchSession (incrementMetaCount (ensureSession st sid none nowE) sid false now1) sid now2

/-- The operations that reach the index during normal operation; appends
carry the three clock reads of their three inner calls. -/
inductive IdxOp
  | ensure (sid : String) (u : Option MetaUpdate) (now : Nat)
  | update (sid : String) (u : MetaUpdate) (now : Nat)
  | appendStream (sid : String) (nowE now1 now2 : Nat)
  | appendHook (sid : String) (nowE now1 now2 : Nat)
  deriving DecidableEq

/-- One store operation. -/
def idxStep (st : IndexStore) : IdxOp → IndexStore
  | .ensure sid u now => ensureSession st sid u now
  | .update sid u now => updateSessionMeta st sid u now
  | .appendStream sid nowE now1 now2 => appendStreamMeta st sid nowE now1 now2
  | .appendHook sid nowE now1 now2 => appendHookMeta st sid nowE now1 now2

/-- A store history: operations applied to the store over no sessions. -/
def idxRun (ops : List IdxOp) : IndexStore :=
  ops.foldl idxStep emptyIndexStore

/-- rebuildIndex (event-store.ts lines 809-841): scan every session
directory and rebuild each index entry from that session's meta.json
alone. -/
def rebuildIndex (metas : String → Option SessionMeta) :
    String → Option SessionIndexEntry :=
  fun sid => (metas sid).map (fun m =>
    ⟨m.createdAt, m.lastUpdatedAt, m.workspace, m.firstPrompt⟩)

/-- The projection the claim compares: creation and update timestamps. -/
def entryTimes (e : SessionIndexEntry) : Nat × Nat :=
  (e.createdAt, e.lastUpdatedAt)

/-- Does the clock stand still across the two post-write reads of an append
(incrementMetaCount's meta write and touchSession's index touch)?  Trivially
true for the single-read operations. -/
def appendClockAgrees : IdxOp → Bool
  | .appendStream _ _ now1 now2 => now1 == now2
  | .appendHook _ _ now1 now2 => now1 == now2
  | _ => true

/-- The strong invariant tying the incremental index to the meta records:
both are defined on the same sessions, with identical timestamps. -/
def IndexTimesInv (st : IndexStore) : Prop :=
  ∀ sid, (st.index sid).map entryTimes =
    (st.metas sid).map (fun m => (m.createdAt, m.lastUpdatedAt))

/-- The unconditional invariant: both maps are defined on the same sessions,
with identical creation timestamps. -/
def IndexCreatedInv (st : IndexStore) : Prop :=
  ∀ sid, (st.index sid).map (·.createdAt) = (st.metas sid).map (·.createdAt)

theorem indexTimesInv_ensure (st : IndexStore) (h : IndexTimesInv st)
    (sid : String) (u : Option MetaUpdate) (now : Nat) :
    IndexTimesInv (ensureSession st sid u now) := by
  intro s
  rw [ensureSession.eq_def]
  cases hm : st.metas sid with
  | none =>
    by_cases hs : s = sid <;> simp [updFun, hs, entryTimes, h s]
  | some m =>
    cases u with
    | none => exact h s
    | some upd =>
      dsimp only
      rw [updateSessionMeta.eq_def, hm]
      cases he : st.index sid with
      | none =>
        exfalso
        have hx := h sid
        rw [he, hm] at hx
        simp at hx
      | some e =>
        have hts : e.createdAt = m.createdAt ∧ e.lastUpdatedAt = m.lastUpdatedAt := by
          have hx := h sid
          rw [he, hm] at hx
          simpa [entryTimes] using hx
        by_cases hs : s = sid
        · subst hs
          simp [updFun, entryTimes, mergeMeta, hts.1]
        · simp [updFun, hs, h s]

theorem indexTimesInv_update (st : IndexStore) (h : IndexTimesInv st)
    (sid : String) (u : MetaUpdate) (now : Nat) :
    IndexTimesInv (updateSessionMeta st sid u now) := by
  intro s
  rw [updateSessionMeta.eq_def]
  cases hm : st.metas sid with
  | none => exact h s
  | some m =>
    cases he : st.index sid with
    | none =>
      exfalso
      have hx := h sid
      rw [he, hm] at hx
      simp at hx
    | some e =>
      have hts : e.createdAt = m.createdAt ∧ e.lastUpdatedAt = m.lastUpdatedAt := by
        have hx := h sid
        rw [he, hm] at hx
        simpa [entryTimes] using hx
      by_cases hs : s = sid
      · subst hs
        simp [updFun, entryTimes, mergeMeta, hts.1]
      · simp [updFun, hs, h s]

theorem indexTimesInv_increment_touch (st : IndexStore) (h : IndexTimesInv st)
    (sid : String) (isStream : Bool) (now : Nat) :
    IndexTimesInv (touchSession (incrementMetaCount st sid isStream now) sid now) := by
  intro s
  simp only [touchSession, incrementMetaCount]
  by_cases hs : s = sid
  · subst hs
    have hx := h s
    simp only [if_pos rfl]
    cases hi : st.index s <;> cases hm : st.metas s <;> rw [hi, hm] at hx <;>
      simp [entryTimes] at hx ⊢
    exact hx.1
  · simp only [if_neg hs]
    exact h s

/-- Under agreeing clock reads, every operation preserves the strong
invariant. -/
theorem indexTimesInv_step_agreed (st : IndexStore) (h : IndexTimesInv st)
    (op : IdxOp) (hop : appendClockAgrees op = true) :
    IndexTimesInv (idxStep st op) := by
  cases op with
  | ensure sid u now => exact indexTimesInv_ensure st h sid u now
  | update sid u now => exact indexTimesInv_update st h sid u now
  | appendStream sid nowE now1 now2 =>
    have h12 : now1 = now2 := by simpa [appendClockAgrees] using hop
    subst h12
    exact indexTimesInv_increment_touch (ensureSession st sid none nowE)
      (indexTimesInv_ensure st h sid none nowE) sid true now1
  | appendHook sid nowE now1 now2 =>
    have h12 : now1 = now2 := by simpa [appendClockAgrees] using hop
    subst h12
    exact indexTimesInv_increment_touch (ensureSession st sid none nowE)
      (indexTimesInv_ensure st h sid none nowE) sid false now1

theorem indexCreatedInv_ensure (st : IndexStore) (h : IndexCreatedInv st)
    (sid : String) (u : Option MetaUpdate) (now : Nat) :
    IndexCreatedInv (ensureSession st sid u now) := by
  intro s
  rw [ensureSession.eq_def]
  cases hm : st.metas sid with
  | none =>
    by_cases hs : s = sid <;> simp [updFun, hs, h s]
  | some m =>
    cases u with
    | none => exact h s
    | some upd =>
      dsimp only
      rw [updateSessionMeta.eq_def, hm]
      cases he : st.index sid with
      | none =>
        exfalso
        have hx := h sid
        rw [he, hm] at hx
        simp at hx
      | some e =>
        have hc : e.createdAt = m.createdAt := by
          have hx := h sid
          rw [he, hm] at hx
          simpa using hx
        by_cases hs : s = sid
        · subst hs
          simp [updFun, mergeMeta, hc]
        · simp [updFun, hs, h s]

theorem indexCreatedInv_update (st : IndexStore) (h : IndexCreatedInv st)
    (sid : String) (u : MetaUpdate) (now : Nat) :
    IndexCreatedInv (updateSessionMeta st sid u now) := by
  intro s
  rw [updateSessionMeta.eq_def]
  cases hm : st.metas sid with
  | none => exact h s
  | some m =>
    cases he : st.index sid with
    | none =>
      exfalso
      have hx := h sid
      rw [he, hm] at hx
      simp at hx
    | some e =>
      have hc : e.createdAt = m.createdAt := by
        have hx := h sid
        rw [he, hm] at hx
        simpa using hx
      by_cases hs : s = sid
      · subst hs
        simp [updFun, mergeMeta, hc]
      · simp [updFun, hs, h s]

theorem indexCreatedInv_increment_touch (st : IndexStore) (h : IndexCreatedInv st)
    (sid : String) (isStream : Bool) (now1 now2 : Nat) :
    IndexCreatedInv (touchSession (incrementMetaCount st sid isStream now1) sid now2) := by
  intro s
  simp only [touchSession, incrementMetaCount]
  by_cases hs : s = sid
  · subst hs
    have hx := h s
    simp only [if_pos rfl]
    cases hi : st.index s <;> cases hm : st.metas s <;> rw [hi, hm] at hx <;>
      simp at hx ⊢
    exact hx
  · simp only [if_neg hs]
    exact h s

/-- Every operation preserves the creation-timestamp invariant, whatever the
clock does. -/
theorem indexCreatedInv_step (st : IndexStore) (h : IndexCreatedInv st) (op : IdxOp) :
    IndexCreatedInv (idxStep st op) := by
  cases op with
  | ensure sid u now => exact indexCreatedInv_ensure st h sid u now
  | update sid u now => exact indexCreatedInv_update st h sid u now
  | appendStream sid nowE now1 now2 =>
    exact indexCreatedInv_increment_touch (ensureSession st sid none nowE)
      (indexCreatedInv_ensure st h sid none nowE) sid true now1 now2
  | appendHook sid nowE now1 now2 =>
    exact indexCreatedInv_increment_touch (ensureSession st sid none nowE)
      (indexCreatedInv_ensure st h sid none nowE) sid false now1 now2

/-- Counterexample to C6 as stated: create a session at time 0, then append
one event during which the millisecond clock advances between the meta
write (read 2) and the index touch (read 3).  The rebuilt entry carries
updated timestamp 2, the incrementally built index carries 3: the two
indexes are not identical by updated timestamp. -/
theorem index_rebuild_clock_skew_counterexample :
    (rebuildIndex (idxRun [.ensure "s" none 0, .appendStream "s" 1 2 3]).metas "s").map
        entryTimes = some (0, 2) ∧
      ((idxRun [.ensure "s" none 0, .appendStream "s" 1 2 3]).index "s").map
        entryTimes = some (0, 3) ∧
      ((0, 2) : Nat × Nat) ≠ (0, 3) := by
  refine ⟨by decide, by decide, by decide⟩

/-- C6 (amended): for every reachable store state, the rebuilt index
contains the same sessions as the incrementally built one, identical per
session id by creation timestamp; the updated timestamps also agree
provided the two clock reads inside each append — the meta write in
incrementMetaCount and the index touch in touchSession — returned the same
millisecond.  (When the clock advances between the two reads, the rebuilt
entry keeps the earlier meta timestamp while the incremental index holds
the later touch timestamp.) -/
theorem index_rebuild_equiv_amended :
    (∀ (ops : List IdxOp) (sid : String),
      (rebuildIndex (idxRun ops).metas sid).map (·.createdAt) =
        ((idxRun ops).index sid).map (·.createdAt)) ∧
    (∀ ops : List IdxOp, (∀ op ∈ ops, appendClockAgrees op = true) →
      ∀ sid,
        (rebuildIndex (idxRun ops).metas sid).map entryTimes =
          ((idxRun ops).index sid).map entryTimes) := by
  constructor
  · intro ops sid
    have key : IndexCreatedInv (idxRun ops) := by
      rw [idxRun]
      have h0 : IndexCreatedInv emptyIndexStore := fun _ => rfl
      generalize hst : emptyIndexStore = st0 at h0
      clear hst
      induction ops generalizing st0 with
      | nil => exact h0
      | cons op rest ih =>
        rw [List.foldl_cons]
        exact ih (idxStep st0 op) (indexCreatedInv_step st0 h0 op)
    rw [key sid, rebuildIndex]
    cases (idxRun ops).metas sid <;> simp
  · intro ops hops sid
    have key : IndexTimesInv (idxRun ops) := by
      rw [idxRun]
      have h0 : IndexTimesInv emptyIndexStore := fun _ => rfl
      generalize hst : emptyIndexStore = st0 at h0
      clear hst
      induction ops generalizing st0 with
      | nil => exact h0
      | cons op rest ih =>
        have hop := hops op (List.mem_cons_self op rest)
        have hrest : ∀ op ∈ rest, appendClockAgrees op = true :=
          fun o ho => hops o (List.mem_cons_of_mem op ho)
        rw [List.foldl_cons]
        exact ih hrest (idxStep st0 op) (indexTimesInv_step_agreed st0 h0 op hop)
    rw [key sid, rebuildIndex]
    cases (idxRun ops).metas sid <;> simp [entryTimes]

/-- Witness for the amended C6: one append whose two post-write clock reads
agree leaves the rebuilt and the incremental index identical by creation
and update timestamps. -/
theorem index_rebuild_equiv_amended_witness :
    (rebuildIndex (idxRun [.appendStream "s" 0 1 1]).metas "s").map entryTimes =
      ((idxRun [.appendStream "s" 0 1 1]).index "s").map entryTimes :=
  index_rebuild_equiv_amended.2 [.appendStream "s" 0 1 1] (by decide) "s"

/-! ## Per-workspace execution mutex (run-manager.ts, execute) -/

/-- One execute call: its workspace, its arrival time (the synchronous
moment it chains itself onto the workspace lock), the running time of its
executeInner, and whether executeInner succeeds or throws. -/
structure RunSpec where
  ws : String
  arrive : Nat
  dur : Nat
  ok : Bool
  deriving DecidableEq

/-- The promise-chain tails (the workspaceLocks map): the time at which the
lock of each workspace resolves; an absent workspace resolves immediately
(Promise.resolve, time 0). -/
def lockEnd : List (String × Nat) → String → Nat
  | [], _ => 0
  | p :: rest, w => if p.1 == w then p.2 else lockEnd rest w

/-- Replace (or add) the chain tail of one workspace. -/
def setLock : List (String × Nat) → String → Nat → List (String × Nat)
  | [], w, t => [(w, t)]
  | p :: rest, w, t => if p.1 == w then (w, t) :: rest else p :: setLock rest w t

/-- Timing semantics of RunManager.execute (run-manager.ts lines 63-81) over
the calls in arrival order: each call awaits the previous promise of its
workspace before running executeInner, and resolves its own lock — in the
finally block, so on success and on error alike — when executeInner
finishes.  Yields per call its start time, its end (lock release) time and
its propagated outcome. -/
def sched : List (String × Nat) → List RunSpec → List (Nat × Nat × Bool)
  | _, [] => []
  | ls, r :: rs =>
    let s := max r.arrive (lockEnd ls r.ws)
    let e := s + r.dur
    (s, e, r.ok) :: sched (setLock ls r.ws e) rs

/-- Execute calls arriving on an idle RunManager (empty workspaceLocks). -/
def schedule (rs : List RunSpec) : List (Nat × Nat × Bool) :=
  sched [] rs

theorem strBeq_comm_false (a b : String) (h : (a == b) = false) : (b == a) = false := by
  cases hc : b == a with
  | false => rfl
  | true =>
    rw [beq_iff_eq.mp hc] at h
    simp at h

theorem lockEnd_setLock_self (w : String) (t : Nat) :
    ∀ ls, lockEnd (setLock ls w t) w = t := by
  intro ls
  induction ls with
  | nil => simp [setLock, lockEnd]
  | cons p rest ih =>
    rw [setLock]
    by_cases hp : p.1 == w
    · simp [hp, lockEnd]
    · simp [hp, lockEnd, ih]

theorem lockEnd_setLock_ne (w w2 : String) (t : Nat) (h : (w2 == w) = false) :
    ∀ ls, lockEnd (setLock ls w t) w2 = lockEnd ls w2 := by
  intro ls
  have h2 : (w == w2) = false := strBeq_comm_false w2 w h
  induction ls with
  | nil => simp [setLock, lockEnd, h2]
  | cons p rest ih =>
    rw [setLock]
    by_cases hp : p.1 == w
    · have hpw : p.1 = w := beq_iff_eq.mp hp
      simp [lockEnd, h2, hpw]
    · simp [hp, lockEnd, ih]

/-- Every scheduled run starts no earlier than the current chain tail of its
workspace. -/
theorem sched_start_ge_lock :
    ∀ (rs : List RunSpec) (ls : List (String × Nat)) (j : Nat) (rj : RunSpec)
      (sj : Nat × Nat × Bool),
      rs[j]? = some rj → (sched ls rs)[j]? = some sj →
      lockEnd ls rj.ws ≤ sj.1 := by
  intro rs
  induction rs with
  | nil => intro ls j rj sj h; simp at h
  | cons r rest ih =>
    intro ls j rj sj hr hs
    cases j with
    | zero =>
      simp at hr
      subst hr
      rw [sched] at hs
      simp at hs
      subst hs
      simp
    | succ k =>
      simp at hr
      rw [sched] at hs
      simp at hs
      have step := ih _ k rj sj hr hs
      by_cases hw : rj.ws == r.ws
      · have hws : rj.ws = r.ws := beq_iff_eq.mp hw
        rw [hws] at step ⊢
        rw [lockEnd_setLock_self] at step
        have hle := le_max_right r.arrive (lockEnd ls r.ws)
        omega
      · rw [lockEnd_setLock_ne _ _ _ (by simpa using hw)] at step
        exact step

/-- Serialization along one workspace chain: a later call never starts
before an earlier same-workspace call has released its slot. -/
theorem sched_no_overlap :
    ∀ (rs : List RunSpec) (ls : List (String × Nat)) (i j : Nat)
      (ri rj : RunSpec) (si sj : Nat × Nat × Bool),
      i < j → rs[i]? = some ri → rs[j]? = some rj → ri.ws = rj.ws →
      (sched ls rs)[i]? = some si → (sched ls rs)[j]? = some sj →
      si.2.1 ≤ sj.1 := by
  intro rs
  induction rs with
  | nil => intro ls i j ri rj si sj hij h; simp at h
  | cons r rest ih =>
    intro ls i j ri rj si sj hij hri hrj hw hsi hsj
    obtain ⟨k, rfl⟩ : ∃ k, j = k + 1 := ⟨j - 1, by omega⟩
    simp at hrj
    rw [sched] at hsi hsj
    simp at hsj
    cases i with
    | zero =>
      simp at hri
      subst hri
      simp at hsi
      subst hsi
      have hstart := sched_start_ge_lock rest _ k rj sj hrj hsj
      rw [← hw, lockEnd_setLock_self] at hstart
      simpa using hstart
    | succ a =>
      simp at hri hsi
      exact ih _ a k ri rj si sj (by omega) hri hrj hw hsi hsj

/-- Timing (start and release times) never depends on run outcomes: the
finally block releases the slot identically on success and on error. -/
theorem sched_outcome_independent :
    ∀ (rs : List RunSpec) (ls : List (String × Nat)),
      (sched ls rs).map (fun x => (x.1, x.2.1)) =
        (sched ls (rs.map (fun r => { r with ok := true }))).map
          (fun x => (x.1, x.2.1)) := by
  intro rs
  induction rs with
  | nil => intro ls; rfl
  | cons r rest ih =>
    intro ls
    rw [List.map_cons, sched, sched, List.map_cons, List.map_cons, List.cons_eq_cons]
    exact ⟨rfl, ih _⟩

/-- The chain state only matters through the workspaces of the runs. -/
theorem sched_congr_locks :
    ∀ (rs : List RunSpec) (ls1 ls2 : List (String × Nat)),
      (∀ r ∈ rs, lockEnd ls1 r.ws = lockEnd ls2 r.ws) →
      sched ls1 rs = sched ls2 rs := by
  intro rs
  induction rs with
  | nil => intro ls1 ls2 _; rfl
  | cons r rest ih =>
    intro ls1 ls2 h
    have hr := h r (List.mem_cons_self r rest)
    rw [sched, sched]
    simp only [hr]
    rw [List.cons_eq_cons]
    refine ⟨rfl, ih _ _ ?_⟩
    intro r2 hr2
    by_cases hw : r2.ws == r.ws
    · have hws : r2.ws = r.ws := beq_iff_eq.mp hw
      rw [hws, lockEnd_setLock_self, lockEnd_setLock_self]
    · rw [lockEnd_setLock_ne _ _ _ (by simpa using hw),
        lockEnd_setLock_ne _ _ _ (by simpa using hw)]
      exact h r2 (List.mem_cons_of_mem r hr2)

/-- The schedule of one workspace is the schedule of its own runs alone:
runs in other workspaces never delay it. -/
theorem sched_filter_ws :
    ∀ (rs : List RunSpec) (ls : List (String × Nat)) (w : String),
      ((rs.zip (sched ls rs)).filter (fun p => p.1.ws == w)).map (·.2) =
        sched ls (rs.filter (fun r => r.ws == w)) := by
  intro rs
  induction rs with
  | nil => intro ls w; rfl
  | cons r rest ih =>
    intro ls w
    rw [sched, List.zip_cons_cons, List.filter_cons, List.filter_cons]
    by_cases hw : r.ws == w
    · simp only [hw, if_true, List.map_cons]
      rw [sched, List.cons_eq_cons]
      exact ⟨rfl, ih _ w⟩
    · simp only [hw, Bool.false_eq_true, if_false]
      rw [ih _ w]
      refine sched_congr_locks _ _ _ ?_
      intro r2 hr2
      have hrw : (r2.ws == w) = true := by
        have := List.mem_filter.mp hr2
        simpa using this.2
      have hne : (r2.ws == r.ws) = false := by
        have h2 : r2.ws = w := beq_iff_eq.mp hrw
        have h3 : (r.ws == r2.ws) = false := by
          rw [h2]
          simpa using hw
        exact strBeq_comm_false _ _ h3
      rw [lockEnd_setLock_ne _ _ _ hne]

/-- C5: the per-workspace mutex of RunManager.execute.  (a) Two calls for
the same workspace never overlap: in arrival (queue) order, a later call
starts no earlier than the release of every earlier same-workspace call —
first-in-first-out serialization.  (b) Start and release times are
independent of run outcomes: the slot is released in the finally path on
success and error alike, so a failed run never blocks a queued one.  (c)
The schedule of any workspace equals the schedule computed from its own
runs alone, so calls for different workspaces are not serialized against
each other; (d) concretely, two simultaneous calls in different workspaces
both run over the same window even though the first one fails. -/
theorem workspace_mutex_spec :
    (∀ (rs : List RunSpec) (i j : Nat) (ri rj : RunSpec) (si sj : Nat × Nat × Bool),
      i < j → rs[i]? = some ri → rs[j]? = some rj → ri.ws = rj.ws →
      (schedule rs)[i]? = some si → (schedule rs)[j]? = some sj →
      si.2.1 ≤ sj.1) ∧
    (∀ rs : List RunSpec,
      (schedule rs).map (fun x => (x.1, x.2.1)) =
        (schedule (rs.map (fun r => { r with ok := true }))).map
          (fun x => (x.1, x.2.1))) ∧
    (∀ (rs : List RunSpec) (w : String),
      ((rs.zip (schedule rs)).filter (fun p => p.1.ws == w)).map (·.2) =
        schedule (rs.filter (fun r => r.ws == w))) ∧
    schedule [⟨"a", 0, 10, false⟩, ⟨"b", 0, 10, true⟩] =
      [(0, 10, false), (0, 10, true)] := by
  refine ⟨?_, ?_, ?_, by decide⟩
  · intro rs i j ri rj si sj hij hri hrj hw hsi hsj
    exact sched_no_overlap rs [] i j ri rj si sj hij hri hrj hw hsi hsj
  · intro rs
    exact sched_outcome_independent rs []
  · intro rs w
    exact sched_filter_ws rs [] w

/-- Witness for C5: two calls on the same workspace, the first failing; the
second starts exactly when the first releases the slot. -/
theorem workspace_mutex_spec_witness :
    (schedule [⟨"a", 0, 5, false⟩, ⟨"a", 0, 3, true⟩])[0]? = some (0, 5, false) ∧
      (schedule [⟨"a", 0, 5, false⟩, ⟨"a", 0, 3, true⟩])[1]? = some (5, 8, true) ∧
      ((0, 5, false) : Nat × Nat × Bool).2.1 ≤ ((5, 8, true) : Nat × Nat × Bool).1 :=
  ⟨by decide, by decide,
    workspace_mutex_spec.1 [⟨"a", 0, 5, false⟩, ⟨"a", 0, 3, true⟩] 0 1
      ⟨"a", 0, 5, false⟩ ⟨"a", 0, 3, true⟩ (0, 5, false) (5, 8, true)
      (by decide) (by decide) (by decide) rfl (by decide) (by decide)⟩

end CCBridge
